import Mathlib

/-!
Verification of the VeriPipe_RTL pipeline control-signal scheduler
(`src/pipeline_scheduler/pipeline_scheduler.py`).

The script builds a directed dependency graph from an edge list
(`nx.DiGraph` + `add_edges_from`, lines 83-84), checks acyclicity
(line 90), computes ASAP (lines 100-106) and ALAP (lines 114-121)
schedules by forward and backward topological traversal, derives
slack and mobility (lines 126-127), a per-node uniform probability
distribution and a per-step distribution cost (lines 138-150), and a
force-directed step assignment (lines 157-161).

The embedding is parameterised by the input edge list (the source
hard-codes one concrete list; the spec describes the pipeline as a
function of an arbitrary edge list).  Nodes are strings, as in the
source.  `nx.DiGraph` collapses duplicate edges and discovers nodes
from edge endpoints in insertion order, which `uedges`/`nodesOf`
reproduce.  `nx.topological_sort` (Kahn's algorithm) is modelled by a
fuel-bounded Kahn loop that repeatedly emits the first remaining node
all of whose predecessors have already been emitted; the ASAP/ALAP
recurrences read only finalized values, so their results do not depend
on which topological order is used.  Python floats are modelled as
exact rationals (`ℚ`); Python ints as `Int` (ASAP values are produced
by `max (· + 1)` recurrences starting from 0, hence `Nat`).
-/

namespace VeriPipe

abbrev Node := String

abbrev Edges := List (Node × Node)

/-- Append an element to a list if it is not already present
(insertion-ordered set insertion, as in `nx.DiGraph` node/edge
discovery). -/
def insUnique {α : Type} [DecidableEq α] (l : List α) (a : α) : List α :=
  if a ∈ l then l else l ++ [a]

/-- Insertion-ordered deduplication. -/
def uniqueList {α : Type} [DecidableEq α] (l : List α) : List α :=
  l.foldl insUnique []

/-- The edge set of the graph: `G.add_edges_from(edges)` collapses
duplicate edges (source lines 83-84). -/
def uedges (es : Edges) : Edges := uniqueList es

/-- The node set of the graph, discovered from edge endpoints in
insertion order (`nx.DiGraph` semantics for `G.nodes()`). -/
def nodesOf (es : Edges) : List Node :=
  (uedges es).foldl (fun l e => insUnique (insUnique l e.1) e.2) []

/-- `G.predecessors(n)` (source line 102). -/
def preds (es : Edges) (n : Node) : List Node :=
  ((uedges es).filter (fun e => e.2 == n)).map (fun e => e.1)

/-- `G.successors(n)` (source line 117). -/
def succs (es : Edges) (n : Node) : List Node :=
  ((uedges es).filter (fun e => e.1 == n)).map (fun e => e.2)

/-- A node is ready for Kahn's algorithm when none of its predecessors
is still unprocessed. -/
def readyB (es : Edges) (remaining : List Node) (n : Node) : Bool :=
  (preds es n).all (fun p => !(remaining.contains p))

/-- Fuel-bounded Kahn loop: emit the first ready remaining node, or
stop (cycle: every remaining node has an unprocessed predecessor). -/
def topoAux (es : Edges) : Nat → List Node → List Node
  | 0, _ => []
  | fuel + 1, remaining =>
    match remaining.find? (readyB es remaining) with
    | none => []
    | some n => n :: topoAux es fuel (remaining.erase n)

/-- Model of `nx.topological_sort(G)` (source lines 101, 116). -/
def topoSort (es : Edges) : List Node :=
  topoAux es (nodesOf es).length (nodesOf es)

/-- Model of `nx.is_directed_acyclic_graph(G)` (source line 90):
Kahn's algorithm empties the graph exactly on acyclic inputs. -/
def isDAG (es : Edges) : Bool :=
  decide ((topoSort es).length = (nodesOf es).length)

/-- Record a newly computed per-node value `V t n` in the table `t`
(the dict assignments `ASAP[node] = ...` / `ALAP[node] = ...`). -/
def updF {β : Type} (V : (Node → β) → Node → β) (t : Node → β) (n : Node) :
    Node → β :=
  fun x => if x = n then V t n else t x

/-- The ASAP recurrence body (source lines 103-106): roots get step 0,
any other node gets `max(ASAP[p] + 1 for p in preds)`, reading the
table `t` built so far.  The nonempty branch mirrors Python's `max`
over a nonempty generator. -/
def asapVal (es : Edges) (t : Node → Nat) (n : Node) : Nat :=
  match preds es n with
  | [] => 0
  | p :: ps => ps.foldl (fun a q => Nat.max a (t q + 1)) (t p + 1)

/-- The ASAP table (source lines 100-106): fold the recurrence over a
topological order.  Nodes never reached (impossible on a DAG) read 0. -/
def ASAP (es : Edges) : Node → Nat :=
  (topoSort es).foldl (updF (asapVal es)) (fun _ => 0)

/-- `max_asap = max(ASAP.values())` (source line 111), as a total fold
(the pipeline entry point reports the `ValueError` of `max` on the
empty graph separately, see `pipeline`). -/
def maxAsap (es : Edges) : Nat :=
  (nodesOf es).foldl (fun a n => Nat.max a (ASAP es n)) 0

/-- The ALAP recurrence body (source lines 118-121): sinks get the
horizon `H`, any other node gets `min(ALAP[s] - 1 for s in succs)`.
Values are `Int`, as Python's `-` does not truncate at zero. -/
def alapVal (es : Edges) (H : Int) (t : Node → Int) (n : Node) : Int :=
  match succs es n with
  | [] => H
  | s :: ss => ss.foldl (fun a q => min a (t q - 1)) (t s - 1)

/-- The ALAP table (source lines 114-121): fold the recurrence over
the reversed topological order with horizon `max_asap`. -/
def ALAP (es : Edges) : Node → Int :=
  (topoSort es).reverse.foldl (updF (alapVal es (maxAsap es))) (fun _ => 0)

/-- `SLACK[n] = ALAP[n] - ASAP[n]` (source line 126). -/
def SLACK (es : Edges) (n : Node) : Int :=
  ALAP es n - (ASAP es n : Int)

/-- `MOBILITY[n] = ALAP[n] - ASAP[n] + 1` (source line 127). -/
def MOBILITY (es : Edges) (n : Node) : Int :=
  SLACK es n + 1

/-- `Prob[n][t]` (source lines 138-145): `1.0 / MOBILITY[n]` inside
the window `[ASAP[n], ALAP[n]]`, `0.0` outside.  Floats are modelled
as exact rationals. -/
def Prob (es : Edges) (n : Node) (t : Nat) : ℚ :=
  if (ASAP es n : Int) ≤ (t : Int) ∧ (t : Int) ≤ ALAP es n then
    1 / (MOBILITY es n : ℚ)
  else 0

/-- `Cost[t] = sum(Prob[n][t] for n in G.nodes())` (source lines 148-150). -/
def Cost (es : Edges) (t : Nat) : ℚ :=
  ((nodesOf es).map (fun n => Prob es n t)).sum

/-- Python's `min(range(a, a + len + 1), key=f)`: scan the window left
to right and keep the first minimum. -/
def argminFirst (f : Nat → ℚ) : Nat → Nat → Nat
  | a, 0 => a
  | a, len + 1 =>
    if f a ≤ f (argminFirst f (a + 1) len) then a else argminFirst f (a + 1) len

/-- `FDS_schedule[n] = min(range(ASAP[n], ALAP[n] + 1), key=lambda t: Cost[t])`
(source lines 157-161). -/
def FDS_schedule (es : Edges) (n : Node) : Nat :=
  argminFirst (Cost es) (ASAP es n) ((ALAP es n).toNat - ASAP es n)

/-- How a run of the script can die before producing schedule outputs:
`unfeasible` models `networkx.NetworkXUnfeasible`, raised by the
`nx.topological_sort` generator inside the ASAP loop (line 101) on a
cyclic graph — the acyclicity check at lines 90-95 only prints and
falls through; `emptyMax` models the `ValueError` of
`max(ASAP.values())` (line 111) on an empty graph. -/
inductive PipeError
  | unfeasible
  | emptyMax
deriving DecidableEq, Repr

/-- The outputs of one scheduling run: the ASAP, ALAP and FDS tables
(keyed by node in `G.nodes()` order) and the horizon. -/
structure RunOut where
  asapT : List (Node × Nat)
  alapT : List (Node × Int)
  sched : List (Node × Nat)
  horizon : Nat
deriving DecidableEq, Repr

/-- The scheduling pipeline as run by the script: graph construction
(total), the ASAP loop (dies with `NetworkXUnfeasible` on a cyclic
graph), `max_asap` (dies with `ValueError` on the empty graph), then
ALAP, slack/mobility, cost and FDS assignment (all total). -/
def pipeline (es : Edges) : Except PipeError RunOut :=
  if isDAG es then
    if nodesOf es = [] then
      .error .emptyMax
    else
      .ok { asapT := (nodesOf es).map (fun n => (n, ASAP es n))
            alapT := (nodesOf es).map (fun n => (n, ALAP es n))
            sched := (nodesOf es).map (fun n => (n, FDS_schedule es n))
            horizon := maxAsap es }
  else
    .error .unfeasible

/-- Running the pipeline twice on the same edge list (spec §8,
idempotence). -/
def runPipelineTwice (es : Edges) :
    Except PipeError RunOut × Except PipeError RunOut :=
  (pipeline es, pipeline es)

/-- The `resource_type` lookup table (source lines 166-190). -/
def resource_type : List (Node × String) :=
  [("Instruction_Decode", "Decoder"),
   ("RegWrite", "Decoder"),
   ("RegDst", "Decoder"),
   ("ImmSrc", "Decoder"),
   ("ALUOp", "Decoder"),
   ("ALUSrc", "Decoder"),
   ("Branch", "Decoder"),
   ("MemRead", "Decoder"),
   ("MemWrite", "Decoder"),
   ("MemToReg", "Decoder"),
   ("Jump", "Decoder"),
   ("FwdA", "Comparator"),
   ("FwdB", "Comparator"),
   ("FwdC", "Comparator"),
   ("Bubble", "Logic"),
   ("Stall", "Logic"),
   ("ID_EX_Flush", "Logic"),
   ("Flush_IF_ID", "Logic"),
   ("PCWrite", "Logic"),
   ("IF_ID_Write", "Logic"),
   ("BranchZero", "Logic"),
   ("BranchTaken", "Logic"),
   ("PC_src", "Mux")]

/-- The `stage_assignment` lookup table (source lines 195-219). -/
def stage_assignment : List (Node × String) :=
  [("Instruction_Decode", "IF"),
   ("PCWrite", "IF"),
   ("PC_src", "IF"),
   ("IF_ID_Write", "IF"),
   ("Flush_IF_ID", "IF"),
   ("RegWrite", "ID"),
   ("RegDst", "ID"),
   ("ImmSrc", "ID"),
   ("Bubble", "ID"),
   ("Stall", "ID"),
   ("ID_EX_Flush", "ID"),
   ("FwdA", "EX"),
   ("FwdB", "EX"),
   ("ALUSrc", "EX"),
   ("ALUOp", "EX"),
   ("Branch", "EX"),
   ("BranchZero", "EX"),
   ("BranchTaken", "EX"),
   ("Jump", "EX"),
   ("MemRead", "MEM"),
   ("MemWrite", "MEM"),
   ("FwdC", "MEM"),
   ("MemToReg", "WB")]

/-- The `Resource` column of `schedule_data`:
`resource_type.get(node, "Unknown")` (source line 234). -/
def scheduleRowResource (n : Node) : String :=
  (List.lookup n resource_type).getD "Unknown"

/-- The `Stage` column of `schedule_data`:
`stage_assignment.get(node, "?")` (source line 228). -/
def scheduleRowStage (n : Node) : String :=
  (List.lookup n stage_assignment).getD "?"

/-- The resource label in the `FDS_Schedule.txt` writer:
`res = resource_type.get(node, "?")` (source line 264). -/
def txtRowResource (n : Node) : String :=
  (List.lookup n resource_type).getD "?"

/-! ### Basic facts about node discovery and adjacency -/

theorem mem_insUnique {α : Type} [DecidableEq α] {l : List α} {a x : α} :
    x ∈ insUnique l a ↔ x ∈ l ∨ x = a := by
  unfold insUnique
  by_cases h : a ∈ l
  · rw [if_pos h]
    constructor
    · exact fun hx => Or.inl hx
    · rintro (hx | rfl)
      · exact hx
      · exact h
  · rw [if_neg h]
    simp

theorem nodup_insUnique {α : Type} [DecidableEq α] {l : List α} (h : l.Nodup)
    (a : α) : (insUnique l a).Nodup := by
  unfold insUnique
  by_cases ha : a ∈ l
  · rwa [if_pos ha]
  · rw [if_neg ha]
    simp [List.nodup_append, h, ha]

theorem mem_foldl_insUnique {α : Type} [DecidableEq α] :
    ∀ (l acc : List α) (x : α),
      x ∈ l.foldl insUnique acc ↔ x ∈ acc ∨ x ∈ l
  | [], acc, x => by simp
  | a :: l, acc, x => by
    rw [List.foldl_cons, mem_foldl_insUnique l]
    rw [mem_insUnique (l := acc) (a := a) (x := x)]
    simp only [List.mem_cons]
    tauto

theorem nodup_foldl_insUnique {α : Type} [DecidableEq α] :
    ∀ (l acc : List α), acc.Nodup → (l.foldl insUnique acc).Nodup
  | [], _, h => h
  | a :: l, acc, h =>
    nodup_foldl_insUnique l (insUnique acc a) (nodup_insUnique h a)

theorem mem_uedges {es : Edges} {e : Node × Node} : e ∈ uedges es ↔ e ∈ es := by
  unfold uedges uniqueList
  rw [mem_foldl_insUnique]
  simp

theorem mem_foldl_insNodes :
    ∀ (l : Edges) (acc : List Node) (x : Node),
      x ∈ l.foldl (fun t e => insUnique (insUnique t e.1) e.2) acc ↔
        x ∈ acc ∨ ∃ e ∈ l, x = e.1 ∨ x = e.2
  | [], acc, x => by simp
  | e :: l, acc, x => by
    rw [List.foldl_cons, mem_foldl_insNodes l]
    rw [mem_insUnique, mem_insUnique]
    simp only [List.mem_cons]
    constructor
    · rintro (((h | h) | h) | ⟨e', he', h⟩)
      · exact Or.inl h
      · exact Or.inr ⟨e, Or.inl rfl, Or.inl h⟩
      · exact Or.inr ⟨e, Or.inl rfl, Or.inr h⟩
      · exact Or.inr ⟨e', Or.inr he', h⟩
    · rintro (h | ⟨e', (rfl | he'), h⟩)
      · exact Or.inl (Or.inl (Or.inl h))
      · rcases h with h | h
        · exact Or.inl (Or.inl (Or.inr h))
        · exact Or.inl (Or.inr h)
      · exact Or.inr ⟨e', he', h⟩

theorem mem_nodesOf {es : Edges} {x : Node} :
    x ∈ nodesOf es ↔ ∃ e ∈ es, x = e.1 ∨ x = e.2 := by
  unfold nodesOf
  rw [mem_foldl_insNodes]
  constructor
  · rintro (h | ⟨e, he, h⟩)
    · cases h
    · exact ⟨e, mem_uedges.mp he, h⟩
  · rintro ⟨e, he, h⟩
    exact Or.inr ⟨e, mem_uedges.mpr he, h⟩

theorem fst_mem_nodesOf {es : Edges} {p c : Node} (h : (p, c) ∈ es) :
    p ∈ nodesOf es :=
  mem_nodesOf.mpr ⟨(p, c), h, Or.inl rfl⟩

theorem snd_mem_nodesOf {es : Edges} {p c : Node} (h : (p, c) ∈ es) :
    c ∈ nodesOf es :=
  mem_nodesOf.mpr ⟨(p, c), h, Or.inr rfl⟩

theorem nodup_foldl_insNodes :
    ∀ (l : Edges) (acc : List Node), acc.Nodup →
      (l.foldl (fun t e => insUnique (insUnique t e.1) e.2) acc).Nodup
  | [], _, h => h
  | e :: l, acc, h =>
    nodup_foldl_insNodes l _ (nodup_insUnique (nodup_insUnique h e.1) e.2)

theorem nodup_nodesOf (es : Edges) : (nodesOf es).Nodup :=
  nodup_foldl_insNodes (uedges es) [] List.nodup_nil

theorem mem_preds {es : Edges} {p n : Node} : p ∈ preds es n ↔ (p, n) ∈ es := by
  unfold preds
  simp only [List.mem_map, List.mem_filter, beq_iff_eq]
  constructor
  · rintro ⟨⟨a, b⟩, ⟨he, hb⟩, ha⟩
    simp only at ha hb
    subst ha; subst hb
    exact mem_uedges.mp he
  · intro h
    exact ⟨(p, n), ⟨mem_uedges.mpr h, rfl⟩, rfl⟩

/-! ### The topological order produced by the Kahn loop -/

theorem topoAux_zero (es : Edges) (rem : List Node) : topoAux es 0 rem = [] := rfl

theorem topoAux_succ_none (es : Edges) (fuel : Nat) (rem : List Node)
    (hf : rem.find? (readyB es rem) = none) : topoAux es (fuel + 1) rem = [] := by
  unfold topoAux
  rw [hf]

theorem topoAux_succ_some (es : Edges) (fuel : Nat) (rem : List Node) (n : Node)
    (hf : rem.find? (readyB es rem) = some n) :
    topoAux es (fuel + 1) rem = n :: topoAux es fuel (rem.erase n) := by
  show (match rem.find? (readyB es rem) with
        | none => []
        | some m => m :: topoAux es fuel (rem.erase m)) =
      n :: topoAux es fuel (rem.erase n)
  rw [hf]

theorem readyB_eq_true {es : Edges} {rem : List Node} {n : Node} :
    readyB es rem n = true ↔ ∀ q ∈ preds es n, q ∉ rem := by
  unfold readyB
  simp [List.all_eq_true]

theorem topoAux_subset {es : Edges} :
    ∀ {fuel : Nat} {rem : List Node} {x : Node},
      x ∈ topoAux es fuel rem → x ∈ rem := by
  intro fuel
  induction fuel with
  | zero => intro rem x h; cases h
  | succ fuel ih =>
    intro rem x h
    cases hf : rem.find? (readyB es rem) with
    | none => rw [topoAux_succ_none es fuel rem hf] at h; cases h
    | some n =>
      rw [topoAux_succ_some es fuel rem n hf] at h
      rcases List.mem_cons.mp h with rfl | h'
      · exact List.mem_of_find?_eq_some hf
      · exact List.mem_of_mem_erase (ih h')

theorem topoAux_nodup {es : Edges} :
    ∀ {fuel : Nat} {rem : List Node}, rem.Nodup → (topoAux es fuel rem).Nodup := by
  intro fuel
  induction fuel with
  | zero => intro rem _; exact List.nodup_nil
  | succ fuel ih =>
    intro rem hrem
    cases hf : rem.find? (readyB es rem) with
    | none => rw [topoAux_succ_none es fuel rem hf]; exact List.nodup_nil
    | some n =>
      rw [topoAux_succ_some es fuel rem n hf]
      refine List.nodup_cons.mpr ⟨?_, ih (hrem.erase n)⟩
      intro hmem
      exact hrem.not_mem_erase (topoAux_subset hmem)

theorem topoAux_complete {es : Edges} :
    ∀ {fuel : Nat} {rem : List Node},
      (topoAux es fuel rem).length = rem.length →
      ∀ x ∈ rem, x ∈ topoAux es fuel rem := by
  intro fuel
  induction fuel with
  | zero =>
    intro rem hlen x hx
    rw [topoAux_zero] at hlen ⊢
    rw [List.length_nil] at hlen
    rw [List.length_eq_zero.mp hlen.symm] at hx
    cases hx
  | succ fuel ih =>
    intro rem hlen x hx
    cases hf : rem.find? (readyB es rem) with
    | none =>
      rw [topoAux_succ_none es fuel rem hf] at hlen
      rw [List.length_eq_zero.mp hlen.symm] at hx
      cases hx
    | some n =>
      rw [topoAux_succ_some es fuel rem n hf] at hlen ⊢
      have hn : n ∈ rem := List.mem_of_find?_eq_some hf
      have herase : (rem.erase n).length + 1 = rem.length := by
        rw [List.length_erase_of_mem hn]
        have : 1 ≤ rem.length := List.length_pos.mpr (List.ne_nil_of_mem hn)
        omega
      rw [List.length_cons] at hlen
      by_cases hxn : x = n
      · exact hxn ▸ List.mem_cons_self n _
      · exact List.mem_cons_of_mem n
          (ih (by omega) x (List.mem_erase_of_ne hxn |>.mpr hx))

theorem topoAux_before {es : Edges} :
    ∀ {fuel : Nat} {rem : List Node} {p c : Node},
      (topoAux es fuel rem).length = rem.length →
      p ∈ preds es c → p ∈ rem → c ∈ rem →
      List.Sublist [p, c] (topoAux es fuel rem) := by
  intro fuel
  induction fuel with
  | zero =>
    intro rem p c hlen hpc hp hc
    rw [topoAux_zero] at hlen ⊢
    rw [List.length_nil] at hlen
    rw [List.length_eq_zero.mp hlen.symm] at hp
    cases hp
  | succ fuel ih =>
    intro rem p c hlen hpc hp hc
    cases hf : rem.find? (readyB es rem) with
    | none =>
      rw [topoAux_succ_none es fuel rem hf] at hlen
      rw [List.length_eq_zero.mp hlen.symm] at hp
      cases hp
    | some n =>
      rw [topoAux_succ_some es fuel rem n hf] at hlen ⊢
      have hn : n ∈ rem := List.mem_of_find?_eq_some hf
      have hready : ∀ q ∈ preds es n, q ∉ rem :=
        readyB_eq_true.mp (List.find?_some hf)
      have herase : (rem.erase n).length + 1 = rem.length := by
        rw [List.length_erase_of_mem hn]
        have : 1 ≤ rem.length := List.length_pos.mpr (List.ne_nil_of_mem hn)
        omega
      rw [List.length_cons] at hlen
      have hcn : c ≠ n := by
        rintro rfl
        exact hready p hpc hp
      have hc' : c ∈ rem.erase n := (List.mem_erase_of_ne hcn).mpr hc
      by_cases hpn : p = n
      · subst hpn
        have hcrest : c ∈ topoAux es fuel (rem.erase p) :=
          topoAux_complete (by omega) c hc'
        exact (List.singleton_sublist.mpr hcrest).cons₂ p
      · have hp' : p ∈ rem.erase n := (List.mem_erase_of_ne hpn).mpr hp
        exact (ih (by omega) hpc hp' hc').cons n

theorem topoSort_nodup (es : Edges) : (topoSort es).Nodup :=
  topoAux_nodup (nodup_nodesOf es)

theorem isDAG_length {es : Edges} (h : isDAG es = true) :
    (topoSort es).length = (nodesOf es).length := by
  unfold isDAG at h
  exact of_decide_eq_true h

theorem mem_topoSort {es : Edges} (hdag : isDAG es = true) {x : Node}
    (hx : x ∈ nodesOf es) : x ∈ topoSort es :=
  topoAux_complete (isDAG_length hdag) x hx

theorem topo_edge_sublist {es : Edges} (hdag : isDAG es = true) {p c : Node}
    (h : (p, c) ∈ es) : List.Sublist [p, c] (topoSort es) :=
  topoAux_before (isDAG_length hdag) (mem_preds.mpr h)
    (fst_mem_nodesOf h) (snd_mem_nodesOf h)

/-- In a duplicate-free list, anything sublist-before `c` lies in the part
of the list before `c`. -/
theorem mem_prefix_of_sublist_pair {α : Type} :
    ∀ {l l1 l2 : List α} {p c : α}, l.Nodup → List.Sublist [p, c] l →
      l = l1 ++ c :: l2 → p ∈ l1 := by
  intro l
  induction l with
  | nil =>
    intro l1 l2 p c _ _ heq
    exact absurd heq (by simp)
  | cons a t ih =>
    intro l1 l2 p c hnodup hsub heq
    cases l1 with
    | nil =>
      exfalso
      rw [List.nil_append] at heq
      injection heq with h1 h2
      subst h1; subst h2
      cases hsub with
      | cons _ h =>
        exact (List.nodup_cons.mp hnodup).1 (h.subset (by simp))
      | cons₂ _ h =>
        exact (List.nodup_cons.mp hnodup).1 (h.subset (by simp))
    | cons b l1' =>
      rw [List.cons_append] at heq
      injection heq with h1 h2
      subst h1
      cases hsub with
      | cons _ h =>
        exact List.mem_cons_of_mem a (ih (List.nodup_cons.mp hnodup).2 h h2)
      | cons₂ _ h =>
        exact List.mem_cons_self a l1'

theorem mem_succs {es : Edges} {n s : Node} : s ∈ succs es n ↔ (n, s) ∈ es := by
  unfold succs
  simp only [List.mem_map, List.mem_filter, beq_iff_eq]
  constructor
  · rintro ⟨⟨a, b⟩, ⟨he, hb⟩, ha⟩
    simp only at ha hb
    subst ha; subst hb
    exact mem_uedges.mp he
  · intro h
    exact ⟨(n, s), ⟨mem_uedges.mpr h, rfl⟩, rfl⟩

/-! ### Generic facts about the table-building folds -/

theorem foldl_updF_pres {β : Type} (V : (Node → β) → Node → β) :
    ∀ (l : List Node) (t : Node → β) (x : Node), x ∉ l →
      l.foldl (updF V) t x = t x
  | [], _, _, _ => rfl
  | n :: l, t, x, hx => by
    rw [List.foldl_cons,
      foldl_updF_pres V l (updF V t n) x (fun h => hx (List.mem_cons_of_mem n h))]
    have h1 : x ≠ n := fun h => hx (h ▸ List.mem_cons_self n l)
    simp [updF, h1]

theorem foldl_updF_split {β : Type} (V : (Node → β) → Node → β)
    (l1 l2 : List Node) (c : Node) (t : Node → β) (hc : c ∉ l2) :
    (l1 ++ c :: l2).foldl (updF V) t c = V (l1.foldl (updF V) t) c := by
  rw [List.foldl_append, List.foldl_cons,
    foldl_updF_pres V l2 (updF V (l1.foldl (updF V) t) c) c hc]
  simp [updF]

theorem foldl_op_congr {β γ : Type} (op : γ → β → γ) :
    ∀ (l : List Node) (g g' : Node → β) (i : γ),
      (∀ q ∈ l, g q = g' q) →
      l.foldl (fun a q => op a (g q)) i = l.foldl (fun a q => op a (g' q)) i
  | [], _, _, _, _ => rfl
  | n :: l, g, g', i, h => by
    rw [List.foldl_cons, List.foldl_cons, h n (List.mem_cons_self n l),
      foldl_op_congr op l g g' (op i (g' n)) (fun q hq => h q (List.mem_cons_of_mem n hq))]

theorem le_foldl_max (g : Node → Nat) :
    ∀ (l : List Node) (i : Nat), i ≤ l.foldl (fun a q => Nat.max a (g q)) i
  | [], _ => le_refl _
  | n :: l, i =>
    le_trans (Nat.le_max_left i (g n)) (le_foldl_max g l (Nat.max i (g n)))

theorem mem_le_foldl_max (g : Node → Nat) :
    ∀ (l : List Node) (i : Nat) (x : Node), x ∈ l →
      g x ≤ l.foldl (fun a q => Nat.max a (g q)) i := by
  intro l
  induction l with
  | nil => intro i x hx; cases hx
  | cons n l ih =>
    intro i x hx
    rw [List.foldl_cons]
    rcases List.mem_cons.mp hx with rfl | hx'
    · exact le_trans (Nat.le_max_right i (g x)) (le_foldl_max g l _)
    · exact ih _ x hx'

theorem foldl_max_le (g : Node → Nat) :
    ∀ (l : List Node) (i B : Nat), i ≤ B → (∀ x ∈ l, g x ≤ B) →
      l.foldl (fun a q => Nat.max a (g q)) i ≤ B := by
  intro l
  induction l with
  | nil => intro i B hi _; exact hi
  | cons n l ih =>
    intro i B hi h
    rw [List.foldl_cons]
    exact ih _ B (Nat.max_le.mpr ⟨hi, h n (List.mem_cons_self n l)⟩)
      (fun x hx => h x (List.mem_cons_of_mem n hx))

theorem foldl_min_le (g : Node → Int) :
    ∀ (l : List Node) (i : Int), l.foldl (fun a q => min a (g q)) i ≤ i
  | [], _ => le_refl _
  | n :: l, i =>
    le_trans (foldl_min_le g l (min i (g n))) (min_le_left i (g n))

theorem foldl_min_le_mem (g : Node → Int) :
    ∀ (l : List Node) (i : Int) (x : Node), x ∈ l →
      l.foldl (fun a q => min a (g q)) i ≤ g x := by
  intro l
  induction l with
  | nil => intro i x hx; cases hx
  | cons n l ih =>
    intro i x hx
    rw [List.foldl_cons]
    rcases List.mem_cons.mp hx with rfl | hx'
    · exact le_trans (foldl_min_le g l _) (min_le_right i (g x))
    · exact ih _ x hx'

theorem le_foldl_min (g : Node → Int) :
    ∀ (l : List Node) (i B : Int), B ≤ i → (∀ x ∈ l, B ≤ g x) →
      B ≤ l.foldl (fun a q => min a (g q)) i := by
  intro l
  induction l with
  | nil => intro i B hi _; exact hi
  | cons n l ih =>
    intro i B hi h
    rw [List.foldl_cons]
    exact ih _ B (le_min hi (h n (List.mem_cons_self n l)))
      (fun x hx => h x (List.mem_cons_of_mem n hx))

/-! ### The ASAP and ALAP recurrences hold for the computed tables -/

theorem asapVal_nil {es : Edges} {t : Node → Nat} {n : Node}
    (hp : preds es n = []) : asapVal es t n = 0 := by
  unfold asapVal
  rw [hp]

theorem asapVal_cons {es : Edges} {t : Node → Nat} {n p : Node} {ps : List Node}
    (hp : preds es n = p :: ps) :
    asapVal es t n = ps.foldl (fun a q => Nat.max a (t q + 1)) (t p + 1) := by
  unfold asapVal
  rw [hp]

theorem alapVal_nil {es : Edges} {H : Int} {t : Node → Int} {n : Node}
    (hs : succs es n = []) : alapVal es H t n = H := by
  unfold alapVal
  rw [hs]

theorem alapVal_cons {es : Edges} {H : Int} {t : Node → Int} {n s : Node}
    {ss : List Node} (hs : succs es n = s :: ss) :
    alapVal es H t n = ss.foldl (fun a q => min a (t q - 1)) (t s - 1) := by
  unfold alapVal
  rw [hs]

theorem asapVal_congr {es : Edges} {t t' : Node → Nat} {n : Node}
    (h : ∀ q ∈ preds es n, t q = t' q) : asapVal es t n = asapVal es t' n := by
  cases hp : preds es n with
  | nil => rw [asapVal_nil hp, asapVal_nil hp]
  | cons p ps =>
    have hmem : ∀ q ∈ p :: ps, q ∈ preds es n := fun q hq => hp ▸ hq
    rw [asapVal_cons hp, asapVal_cons hp, h p (hmem p (List.mem_cons_self p ps))]
    exact foldl_op_congr Nat.max ps (fun q => t q + 1) (fun q => t' q + 1) _
      (fun q hq => by
        show t q + 1 = t' q + 1
        rw [h q (hmem q (List.mem_cons_of_mem p hq))])

theorem alapVal_congr {es : Edges} {H : Int} {t t' : Node → Int} {n : Node}
    (h : ∀ q ∈ succs es n, t q = t' q) : alapVal es H t n = alapVal es H t' n := by
  cases hs : succs es n with
  | nil => rw [alapVal_nil hs, alapVal_nil hs]
  | cons s ss =>
    have hmem : ∀ q ∈ s :: ss, q ∈ succs es n := fun q hq => hs ▸ hq
    rw [alapVal_cons hs, alapVal_cons hs, h s (hmem s (List.mem_cons_self s ss))]
    exact foldl_op_congr min ss (fun q => t q - 1) (fun q => t' q - 1) _
      (fun q hq => by
        show t q - 1 = t' q - 1
        rw [h q (hmem q (List.mem_cons_of_mem s hq))])

/-- The computed ASAP table satisfies the ASAP recurrence at every node
of an acyclic graph. -/
theorem ASAP_rec (es : Edges) (hdag : isDAG es = true) {n : Node}
    (hn : n ∈ nodesOf es) : ASAP es n = asapVal es (ASAP es) n := by
  obtain ⟨l1, l2, hsplit⟩ := List.append_of_mem (mem_topoSort hdag hn)
  have hnodup : (l1 ++ n :: l2).Nodup := hsplit ▸ topoSort_nodup es
  have hdisj : l1.Disjoint (n :: l2) := List.disjoint_of_nodup_append hnodup
  have hn2 : n ∉ l2 := fun h =>
    (List.nodup_cons.mp (hnodup.sublist (List.sublist_append_right l1 (n :: l2)))).1 h
  have hval : ASAP es n = asapVal es (l1.foldl (updF (asapVal es)) (fun _ => 0)) n := by
    rw [ASAP, hsplit]
    exact foldl_updF_split (asapVal es) l1 l2 n (fun _ => 0) hn2
  rw [hval]
  apply asapVal_congr
  intro q hq
  have hq1 : q ∈ l1 := by
    have hsub := topo_edge_sublist hdag (mem_preds.mp hq)
    exact mem_prefix_of_sublist_pair (topoSort_nodup es) hsub hsplit
  have hqn2 : q ∉ n :: l2 := fun h => hdisj hq1 h
  calc l1.foldl (updF (asapVal es)) (fun _ => 0) q
      = ((n :: l2).foldl (updF (asapVal es)) (l1.foldl (updF (asapVal es)) (fun _ => 0))) q := by
        rw [foldl_updF_pres (asapVal es) (n :: l2) _ q hqn2]
    _ = ASAP es q := by rw [ASAP, hsplit, List.foldl_append]

/-- The computed ALAP table satisfies the ALAP recurrence at every node
of an acyclic graph. -/
theorem ALAP_rec (es : Edges) (hdag : isDAG es = true) {n : Node}
    (hn : n ∈ nodesOf es) : ALAP es n = alapVal es (maxAsap es) (ALAP es) n := by
  have hnrev : n ∈ (topoSort es).reverse :=
    List.mem_reverse.mpr (mem_topoSort hdag hn)
  obtain ⟨l1, l2, hsplit⟩ := List.append_of_mem hnrev
  have hnodupR : (topoSort es).reverse.Nodup :=
    List.nodup_reverse.mpr (topoSort_nodup es)
  have hnodup : (l1 ++ n :: l2).Nodup := hsplit ▸ hnodupR
  have hdisj : l1.Disjoint (n :: l2) := List.disjoint_of_nodup_append hnodup
  have hn2 : n ∉ l2 := fun h =>
    (List.nodup_cons.mp (hnodup.sublist (List.sublist_append_right l1 (n :: l2)))).1 h
  have hval : ALAP es n =
      alapVal es (maxAsap es) (l1.foldl (updF (alapVal es (maxAsap es))) (fun _ => 0)) n := by
    rw [ALAP, hsplit]
    exact foldl_updF_split (alapVal es (maxAsap es)) l1 l2 n (fun _ => 0) hn2
  rw [hval]
  apply alapVal_congr
  intro q hq
  have hq1 : q ∈ l1 := by
    have hsub : List.Sublist [n, q] (topoSort es) :=
      topo_edge_sublist hdag (mem_succs.mp hq)
    have hsubR : List.Sublist [q, n] (topoSort es).reverse := by
      have := hsub.reverse
      simpa using this
    exact mem_prefix_of_sublist_pair hnodupR hsubR hsplit
  have hqn2 : q ∉ n :: l2 := fun h => hdisj hq1 h
  calc l1.foldl (updF (alapVal es (maxAsap es))) (fun _ => 0) q
      = ((n :: l2).foldl (updF (alapVal es (maxAsap es)))
          (l1.foldl (updF (alapVal es (maxAsap es))) (fun _ => 0))) q := by
        rw [foldl_updF_pres (alapVal es (maxAsap es)) (n :: l2) _ q hqn2]
    _ = ALAP es q := by rw [ALAP, hsplit, List.foldl_append]

/-! ### Derived bounds: edges, the horizon, and the timing windows -/

/-- Every dependency edge separates ASAP values by at least one step. -/
theorem ASAP_edge (es : Edges) (hdag : isDAG es = true) {p c : Node}
    (h : (p, c) ∈ es) : ASAP es p + 1 ≤ ASAP es c := by
  rw [ASAP_rec es hdag (snd_mem_nodesOf h)]
  have hq : p ∈ preds es c := mem_preds.mpr h
  cases hp : preds es c with
  | nil => rw [hp] at hq; cases hq
  | cons q qs =>
    rw [asapVal_cons hp]
    rw [hp] at hq
    rcases List.mem_cons.mp hq with rfl | hq'
    · exact le_foldl_max (fun x => ASAP es x + 1) qs (ASAP es p + 1)
    · exact mem_le_foldl_max (fun x => ASAP es x + 1) qs (ASAP es q + 1) p hq'

/-- Every dependency edge separates ALAP values by at least one step. -/
theorem ALAP_edge (es : Edges) (hdag : isDAG es = true) {p c : Node}
    (h : (p, c) ∈ es) : ALAP es p ≤ ALAP es c - 1 := by
  rw [ALAP_rec es hdag (fst_mem_nodesOf h)]
  have hq : c ∈ succs es p := mem_succs.mpr h
  cases hs : succs es p with
  | nil => rw [hs] at hq; cases hq
  | cons q qs =>
    rw [alapVal_cons hs]
    rw [hs] at hq
    rcases List.mem_cons.mp hq with rfl | hq'
    · exact foldl_min_le (fun x => ALAP es x - 1) qs (ALAP es c - 1)
    · exact foldl_min_le_mem (fun x => ALAP es x - 1) qs (ALAP es q - 1) c hq'

/-- Every ASAP value is bounded by the horizon `max_asap`. -/
theorem ASAP_le_maxAsap (es : Edges) {n : Node} (hn : n ∈ nodesOf es) :
    ASAP es n ≤ maxAsap es :=
  mem_le_foldl_max (ASAP es) (nodesOf es) 0 n hn

/-- The timing window of every node of a nonempty acyclic graph is
well-formed: `ASAP(n) ≤ ALAP(n) ≤ H`. -/
theorem alap_window (es : Edges) (hdag : isDAG es = true) :
    ∀ n ∈ nodesOf es,
      (ASAP es n : Int) ≤ ALAP es n ∧ ALAP es n ≤ (maxAsap es : Int) := by
  have key : ∀ k : Nat, ∀ n, n ∈ nodesOf es → maxAsap es - ASAP es n ≤ k →
      (ASAP es n : Int) ≤ ALAP es n ∧ ALAP es n ≤ (maxAsap es : Int) := by
    intro k
    induction k with
    | zero =>
      intro n hn hk
      have hle : ASAP es n ≤ maxAsap es := ASAP_le_maxAsap es hn
      have hE : maxAsap es ≤ ASAP es n := by omega
      rw [ALAP_rec es hdag hn]
      cases hs : succs es n with
      | nil =>
        rw [alapVal_nil hs]
        constructor
        · exact_mod_cast hle
        · exact le_refl _
      | cons s ss =>
        exfalso
        have hsm : s ∈ succs es n := hs ▸ List.mem_cons_self s ss
        have hes : (n, s) ∈ es := mem_succs.mp hsm
        have h1 : ASAP es n + 1 ≤ ASAP es s := ASAP_edge es hdag hes
        have h2 : ASAP es s ≤ maxAsap es := ASAP_le_maxAsap es (snd_mem_nodesOf hes)
        omega
    | succ k ih =>
      intro n hn hk
      have hle : ASAP es n ≤ maxAsap es := ASAP_le_maxAsap es hn
      rw [ALAP_rec es hdag hn]
      cases hs : succs es n with
      | nil =>
        rw [alapVal_nil hs]
        constructor
        · exact_mod_cast hle
        · exact le_refl _
      | cons s ss =>
        have hsucc : ∀ q ∈ s :: ss, (ASAP es n : Int) ≤ ALAP es q - 1 ∧
            ALAP es q - 1 ≤ (maxAsap es : Int) - 1 := by
          intro q hq
          have hqm : q ∈ succs es n := hs ▸ hq
          have heq : (n, q) ∈ es := mem_succs.mp hqm
          have h1 : ASAP es n + 1 ≤ ASAP es q := ASAP_edge es hdag heq
          have hqn : q ∈ nodesOf es := snd_mem_nodesOf heq
          have h2 : ASAP es q ≤ maxAsap es := ASAP_le_maxAsap es hqn
          have h3 := ih q hqn (by omega)
          constructor <;> omega
        rw [alapVal_cons hs]
        constructor
        · apply le_foldl_min
          · exact (hsucc s (List.mem_cons_self s ss)).1
          · intro x hx
            exact (hsucc x (List.mem_cons_of_mem s hx)).1
        · have hub : (maxAsap es : Int) - 1 ≤ (maxAsap es : Int) := by omega
          calc ss.foldl (fun a q => min a (ALAP es q - 1)) (ALAP es s - 1)
              ≤ ALAP es s - 1 := foldl_min_le (fun x => ALAP es x - 1) ss _
            _ ≤ (maxAsap es : Int) := le_trans
                (hsucc s (List.mem_cons_self s ss)).2 hub
  intro n hn
  exact key (maxAsap es - ASAP es n) n hn (le_refl _)

/-! ### The first-minimum scan of a cost window -/

theorem argminFirst_succ (f : Nat → ℚ) (a len : Nat) :
    argminFirst f a (len + 1) =
      if f a ≤ f (argminFirst f (a + 1) len) then a
      else argminFirst f (a + 1) len := rfl

theorem argminFirst_lb (f : Nat → ℚ) :
    ∀ (len a : Nat), a ≤ argminFirst f a len := by
  intro len
  induction len with
  | zero => intro a; exact le_refl a
  | succ len ih =>
    intro a
    rw [argminFirst_succ]
    split
    · exact le_refl a
    · exact le_trans (Nat.le_succ a) (ih (a + 1))

theorem argminFirst_ub (f : Nat → ℚ) :
    ∀ (len a : Nat), argminFirst f a len ≤ a + len := by
  intro len
  induction len with
  | zero => intro a; exact Nat.le_add_right a 0
  | succ len ih =>
    intro a
    rw [argminFirst_succ]
    split
    · omega
    · have := ih (a + 1)
      omega

theorem argminFirst_min (f : Nat → ℚ) :
    ∀ (len a t : Nat), a ≤ t → t ≤ a + len →
      f (argminFirst f a len) ≤ f t := by
  intro len
  induction len with
  | zero =>
    intro a t h1 h2
    have : t = a := by omega
    subst this
    exact le_refl _
  | succ len ih =>
    intro a t h1 h2
    rw [argminFirst_succ]
    by_cases hta : t = a
    · subst hta
      split
      · exact le_refl _
      · next h => exact le_of_lt (lt_of_not_le h)
    · have h1' : a + 1 ≤ t := by omega
      have hrec : f (argminFirst f (a + 1) len) ≤ f t := ih (a + 1) t h1' (by omega)
      split
      · next h => exact le_trans h hrec
      · exact hrec

theorem argminFirst_first (f : Nat → ℚ) :
    ∀ (len a t : Nat), a ≤ t → t < argminFirst f a len →
      f (argminFirst f a len) < f t := by
  intro len
  induction len with
  | zero =>
    intro a t h1 h2
    unfold argminFirst at h2
    omega
  | succ len ih =>
    intro a t h1 h2
    rw [argminFirst_succ] at h2 ⊢
    split
    · next h =>
      rw [if_pos h] at h2
      omega
    · next h =>
      rw [if_neg h] at h2
      by_cases hta : t = a
      · subst hta
        exact lt_of_not_le h
      · exact ih (a + 1) t (by omega) h2

/-- The first minimum of a window moves (weakly) right when both window
ends move (weakly) right. -/
theorem argminFirst_mono (f : Nat → ℚ) {a1 len1 a2 len2 : Nat}
    (h1 : a1 ≤ a2) (h2 : a1 + len1 ≤ a2 + len2) :
    argminFirst f a1 len1 ≤ argminFirst f a2 len2 := by
  by_contra hlt
  push_neg at hlt
  have hy1 : a2 ≤ argminFirst f a2 len2 := argminFirst_lb f len2 a2
  have hx2 : argminFirst f a1 len1 ≤ a1 + len1 := argminFirst_ub f len1 a1
  have hfx : f (argminFirst f a1 len1) < f (argminFirst f a2 len2) :=
    argminFirst_first f len1 a1 (argminFirst f a2 len2) (by omega) hlt
  have hfy : f (argminFirst f a2 len2) ≤ f (argminFirst f a1 len1) :=
    argminFirst_min f len2 a2 (argminFirst f a1 len1) (by omega) (by omega)
  exact absurd hfy (not_le.mpr hfx)

/-! ### Minimality of ASAP among feasible schedules -/

/-- ASAP is pointwise minimal among all precedence-respecting schedules. -/
theorem ASAP_minimal (es : Edges) (hdag : isDAG es = true) (σ : Node → Nat)
    (hσ : ∀ e ∈ es, σ e.1 < σ e.2) :
    ∀ n ∈ nodesOf es, ASAP es n ≤ σ n := by
  have key : ∀ k : Nat, ∀ n, n ∈ nodesOf es → ASAP es n ≤ k → ASAP es n ≤ σ n := by
    intro k
    induction k with
    | zero =>
      intro n _ hk
      omega
    | succ k ih =>
      intro n hn hk
      rw [ASAP_rec es hdag hn]
      cases hp : preds es n with
      | nil =>
        rw [asapVal_nil hp]
        exact Nat.zero_le _
      | cons p ps =>
        rw [asapVal_cons hp]
        have hbound : ∀ q ∈ p :: ps, ASAP es q + 1 ≤ σ n := by
          intro q hq
          have hqp : q ∈ preds es n := hp ▸ hq
          have heq : (q, n) ∈ es := mem_preds.mp hqp
          have h1 : ASAP es q + 1 ≤ ASAP es n := ASAP_edge es hdag heq
          have h2 : ASAP es q ≤ σ q := ih q (fst_mem_nodesOf heq) (by omega)
          have h3 : σ q < σ n := hσ (q, n) heq
          omega
        apply foldl_max_le
        · exact hbound p (List.mem_cons_self p ps)
        · intro x hx
          exact hbound x (List.mem_cons_of_mem p hx)
  intro n hn
  exact key (ASAP es n) n hn (le_refl _)

/-! ### The distribution cost sums -/

theorem listSum_range (f : Nat → ℚ) :
    ∀ K : Nat, ((List.range K).map f).sum = ∑ i ∈ Finset.range K, f i := by
  intro K
  induction K with
  | zero => simp
  | succ K ih =>
    rw [List.range_succ, List.map_append, List.sum_append, Finset.sum_range_succ, ih]
    simp

/-- Each operation's probability distribution sums to exactly one over
the steps `0..H` of a nonempty acyclic graph. -/
theorem Prob_row_sum (es : Edges) (hdag : isDAG es = true) {n : Node}
    (hn : n ∈ nodesOf es) :
    ((List.range (maxAsap es + 1)).map (fun t => Prob es n t)).sum = 1 := by
  obtain ⟨hw, hub⟩ := alap_window es hdag n hn
  have hbeq : ALAP es n = ((ALAP es n).toNat : Int) := by omega
  have hab : ASAP es n ≤ (ALAP es n).toNat := by omega
  have hbH : (ALAP es n).toNat ≤ maxAsap es := by omega
  have hM : MOBILITY es n = (((ALAP es n).toNat + 1 - ASAP es n : Nat) : Int) := by
    rw [MOBILITY, SLACK]
    omega
  rw [listSum_range]
  have hstep : ∀ t ∈ Finset.range (maxAsap es + 1),
      Prob es n t =
        if ASAP es n ≤ t ∧ t ≤ (ALAP es n).toNat then 1 / (MOBILITY es n : ℚ)
        else 0 := by
    intro t _
    rw [Prob]
    refine if_congr ?_ rfl rfl
    omega
  rw [Finset.sum_congr rfl hstep, ← Finset.sum_filter]
  have hfilter :
      (Finset.range (maxAsap es + 1)).filter
          (fun t => ASAP es n ≤ t ∧ t ≤ (ALAP es n).toNat) =
        Finset.Icc (ASAP es n) ((ALAP es n).toNat) := by
    ext t
    simp only [Finset.mem_filter, Finset.mem_range, Finset.mem_Icc]
    omega
  rw [hfilter, Finset.sum_const, Nat.card_Icc, nsmul_eq_mul]
  have hpos : (0 : ℚ) < (((ALAP es n).toNat + 1 - ASAP es n : Nat) : ℚ) := by
    have : 1 ≤ (ALAP es n).toNat + 1 - ASAP es n := by omega
    exact_mod_cast Nat.lt_of_lt_of_le Nat.zero_lt_one this
  have hcast : (MOBILITY es n : ℚ) = (((ALAP es n).toNat + 1 - ASAP es n : Nat) : ℚ) := by
    rw [hM]
    push_cast
    ring
  rw [hcast]
  exact mul_one_div_cancel (ne_of_gt hpos)

theorem sum_swap_list (ts : List Nat) (ns : List Node) (f : Node → Nat → ℚ) :
    (ts.map (fun t => (ns.map (fun n => f n t)).sum)).sum =
      (ns.map (fun n => (ts.map (fun t => f n t)).sum)).sum := by
  induction ts with
  | nil => simp
  | cons t ts ih =>
    rw [List.map_cons, List.sum_cons, ih]
    have hsplit : ns.map (fun n => ((t :: ts).map (fun u => f n u)).sum) =
        ns.map (fun n => f n t + (ts.map (fun u => f n u)).sum) := by
      apply List.map_congr_left
      intro n _
      rw [List.map_cons, List.sum_cons]
    rw [hsplit, List.sum_map_add]

/-- The total of the distribution cost table over steps `0..H` equals the
number of operations. -/
theorem Cost_total (es : Edges) (hdag : isDAG es = true) :
    ((List.range (maxAsap es + 1)).map (Cost es)).sum =
      ((nodesOf es).length : ℚ) := by
  have hC : (List.range (maxAsap es + 1)).map (Cost es) =
      (List.range (maxAsap es + 1)).map
        (fun t => ((nodesOf es).map (fun n => Prob es n t)).sum) := by
    apply List.map_congr_left
    intro t _
    rw [Cost]
  rw [hC, sum_swap_list]
  have hrows : (nodesOf es).map
      (fun n => ((List.range (maxAsap es + 1)).map (fun t => Prob es n t)).sum) =
      (nodesOf es).map (fun _ => (1 : ℚ)) := by
    apply List.map_congr_left
    intro n hn
    exact Prob_row_sum es hdag hn
  rw [hrows]
  rw [List.map_const']
  rw [List.sum_replicate, nsmul_eq_mul, mul_one]

theorem foldl_max_shift (g : Node → Nat) :
    ∀ (l : List Node) (i : Nat),
      l.foldl (fun a q => Nat.max a (g q + 1)) (i + 1) =
        (l.foldl (fun a q => Nat.max a (g q)) i) + 1
  | [], _ => rfl
  | n :: l, i => by
    rw [List.foldl_cons, List.foldl_cons,
      show Nat.max (i + 1) (g n + 1) = Nat.max i (g n) + 1 from
        Nat.succ_max_succ i (g n)]
    exact foldl_max_shift g l (Nat.max i (g n))

/-! ### Concrete inputs used by witnesses and counterexamples -/

/-- Concrete scenario 2 of spec §8: an acyclic graph where `B` has
slack 1 and every other node is critical. -/
def exG : Edges := [("A", "B"), ("A", "C"), ("C", "D"), ("B", "E"), ("D", "E")]

/-- The cyclic input named by spec §8 (`A→B, B→A`). -/
def cycEdges : Edges := [("A", "B"), ("B", "A")]

/-! ### The claims -/

/-- Claim C1: for every acyclic input edge list and every dependency edge
`(producer, consumer)` in it, the assigned FDS schedule places the consumer
no earlier than the producer: `FDS_schedule[consumer] ≥ FDS_schedule[producer]`. -/
theorem C1_fds_respects_edges (es : Edges) (hdag : isDAG es = true)
    (p c : Node) (h : (p, c) ∈ es) :
    FDS_schedule es p ≤ FDS_schedule es c := by
  have h1 := ASAP_edge es hdag h
  have h2 := ALAP_edge es hdag h
  obtain ⟨hwp, hup⟩ := alap_window es hdag p (fst_mem_nodesOf h)
  obtain ⟨hwc, huc⟩ := alap_window es hdag c (snd_mem_nodesOf h)
  show argminFirst (Cost es) (ASAP es p) ((ALAP es p).toNat - ASAP es p) ≤
    argminFirst (Cost es) (ASAP es c) ((ALAP es c).toNat - ASAP es c)
  apply argminFirst_mono
  · omega
  · omega

theorem C1_witness :
    isDAG exG = true ∧ ("A", "B") ∈ exG ∧
      FDS_schedule exG "A" ≤ FDS_schedule exG "B" :=
  ⟨by decide, by decide, C1_fds_respects_edges exG (by decide) "A" "B" (by decide)⟩

/-- Claim C2 (amended): on a cyclic edge list the run produces no
ASAP/ALAP/Schedule output, but not through a `CycleError` at graph
construction: construction succeeds, the acyclicity check only logs, and
the run dies inside the ASAP analyzer when the topological sort rejects
the cyclic graph (`NetworkXUnfeasible`, which carries no cycle). -/
theorem C2_amended_log_and_continue (es : Edges) (hdag : isDAG es = false) :
    pipeline es = Except.error PipeError.unfeasible := by
  have h : ¬ isDAG es = true := by
    rw [hdag]
    exact Bool.false_ne_true
  rw [pipeline, if_neg h]

theorem C2_witness :
    isDAG cycEdges = false ∧
      pipeline cycEdges = Except.error PipeError.unfeasible :=
  ⟨by decide, C2_amended_log_and_continue cycEdges (by decide)⟩

/-- Claim C2 is false as stated: on the cyclic input `A→B, B→A` graph
construction does not fail — it produces the two-node graph — and the
failure that prevents any output is the analyzer-stage `unfeasible`
error (which carries no cycle), not a `CycleError` at construction. -/
theorem C2_counterexample :
    nodesOf cycEdges = ["A", "B"] ∧ isDAG cycEdges = false ∧
      pipeline cycEdges = Except.error PipeError.unfeasible :=
  ⟨by decide, by decide, rfl⟩

/-- Claim C3: for every acyclic graph and every operation,
`ASAP(n) ≤ ALAP(n)`, hence `Slack(n) ≥ 0` and `Mobility(n) ≥ 1`. -/
theorem C3_asap_le_alap (es : Edges) (hdag : isDAG es = true) :
    ∀ n ∈ nodesOf es, (ASAP es n : Int) ≤ ALAP es n ∧
      0 ≤ SLACK es n ∧ 1 ≤ MOBILITY es n := by
  intro n hn
  obtain ⟨h1, _⟩ := alap_window es hdag n hn
  refine ⟨h1, ?_, ?_⟩
  · rw [SLACK]
    omega
  · rw [MOBILITY, SLACK]
    omega

theorem C3_witness :
    isDAG exG = true ∧ "B" ∈ nodesOf exG ∧
      ((ASAP exG "B" : Int) ≤ ALAP exG "B" ∧
        0 ≤ SLACK exG "B" ∧ 1 ≤ MOBILITY exG "B") :=
  ⟨by decide, by decide, C3_asap_le_alap exG (by decide) "B" (by decide)⟩

/-- Claim C4: the ASAP pass assigns 0 to every root and
`1 + max(ASAP over predecessors)` to every other operation; the result is
feasible (strictly increasing along every edge) and pointwise minimal among
all precedence-respecting schedules. -/
theorem C4_asap_recurrence_minimal (es : Edges) (hdag : isDAG es = true) :
    (∀ n ∈ nodesOf es,
      (preds es n = [] → ASAP es n = 0) ∧
      (preds es n ≠ [] →
        ASAP es n = 1 + ((preds es n).map (ASAP es)).foldl Nat.max 0)) ∧
    (∀ e ∈ es, ASAP es e.1 < ASAP es e.2) ∧
    (∀ σ : Node → Nat, (∀ e ∈ es, σ e.1 < σ e.2) →
      ∀ n ∈ nodesOf es, ASAP es n ≤ σ n) := by
  refine ⟨?_, ?_, ASAP_minimal es hdag⟩
  · intro n hn
    constructor
    · intro hp
      rw [ASAP_rec es hdag hn, asapVal_nil hp]
    · intro hp
      cases hpc : preds es n with
      | nil => exact absurd hpc hp
      | cons p ps =>
        rw [ASAP_rec es hdag hn, asapVal_cons hpc,
          foldl_max_shift (ASAP es) ps (ASAP es p),
          List.map_cons, List.foldl_cons, List.foldl_map,
          show Nat.max 0 (ASAP es p) = ASAP es p from
            Nat.max_eq_right (Nat.zero_le _)]
        omega
  · intro e he
    have h := ASAP_edge es hdag (show (e.1, e.2) ∈ es by rw [Prod.mk.eta]; exact he)
    omega

theorem C4_witness :
    isDAG exG = true ∧ ASAP exG "A" = 0 ∧
      ASAP exG "E" = 1 + ((preds exG "E").map (ASAP exG)).foldl Nat.max 0 ∧
      ASAP exG "A" < ASAP exG "B" :=
  ⟨by decide,
   ((C4_asap_recurrence_minimal exG (by decide)).1 "A" (by decide)).1 (by decide),
   ((C4_asap_recurrence_minimal exG (by decide)).1 "E" (by decide)).2 (by decide),
   (C4_asap_recurrence_minimal exG (by decide)).2.1 ("A", "B") (by decide)⟩

/-- Claim C5: for every acyclic graph and operation `n`, the step
assigner picks exactly the first minimum of the frozen cost table over
`[ASAP(n), ALAP(n)]` (smallest step on ties), every assigned step lies in
the window, and every nonempty well-formed graph yields a complete
schedule through the pipeline with no failure. -/
theorem C5_fds_window_first_min (es : Edges) (hdag : isDAG es = true)
    (n : Node) (hn : n ∈ nodesOf es) :
    ASAP es n ≤ FDS_schedule es n ∧
    (FDS_schedule es n : Int) ≤ ALAP es n ∧
    (∀ t : Nat, ASAP es n ≤ t → (t : Int) ≤ ALAP es n →
      Cost es (FDS_schedule es n) ≤ Cost es t) ∧
    (∀ t : Nat, ASAP es n ≤ t → (t : Int) ≤ ALAP es n →
      Cost es t = Cost es (FDS_schedule es n) → FDS_schedule es n ≤ t) ∧
    ∃ r : RunOut, pipeline es = Except.ok r ∧
      (n, FDS_schedule es n) ∈ r.sched := by
  obtain ⟨hw, hub⟩ := alap_window es hdag n hn
  have hfds : FDS_schedule es n =
      argminFirst (Cost es) (ASAP es n) ((ALAP es n).toNat - ASAP es n) := rfl
  refine ⟨?_, ?_, ?_, ?_, ?_⟩
  · rw [hfds]
    exact argminFirst_lb (Cost es) _ _
  · rw [hfds]
    have := argminFirst_ub (Cost es) ((ALAP es n).toNat - ASAP es n) (ASAP es n)
    omega
  · intro t h1 h2
    rw [hfds]
    exact argminFirst_min (Cost es) ((ALAP es n).toNat - ASAP es n) (ASAP es n) t
      h1 (by omega)
  · intro t h1 h2 heq
    by_contra hlt
    push_neg at hlt
    have hfirst := argminFirst_first (Cost es) ((ALAP es n).toNat - ASAP es n)
      (ASAP es n) t h1 (hfds ▸ hlt)
    rw [← hfds, heq] at hfirst
    exact absurd hfirst (lt_irrefl _)
  · have hne : nodesOf es ≠ [] := List.ne_nil_of_mem hn
    have hpipe : pipeline es = Except.ok
        { asapT := (nodesOf es).map (fun m => (m, ASAP es m))
          alapT := (nodesOf es).map (fun m => (m, ALAP es m))
          sched := (nodesOf es).map (fun m => (m, FDS_schedule es m))
          horizon := maxAsap es } := by
      rw [pipeline, if_pos hdag, if_neg hne]
    exact ⟨_, hpipe, List.mem_map.mpr ⟨n, hn, rfl⟩⟩

theorem C5_witness :
    isDAG exG = true ∧ "B" ∈ nodesOf exG ∧
      ASAP exG "B" ≤ FDS_schedule exG "B" ∧
      (FDS_schedule exG "B" : Int) ≤ ALAP exG "B" :=
  ⟨by decide, by decide,
   (C5_fds_window_first_min exG (by decide) "B" (by decide)).1,
   (C5_fds_window_first_min exG (by decide) "B" (by decide)).2.1⟩

/-- Claim C6: each operation's per-step weight is `1/Mobility(n)` inside
its window and 0 outside, each operation's distribution sums to exactly 1
over steps `0..H`, and the total of the cost table equals the number of
operations, for every acyclic graph. -/
theorem C6_distribution_sums (es : Edges) (hdag : isDAG es = true) :
    (∀ n ∈ nodesOf es, ∀ t : Nat,
      (((ASAP es n : Int) ≤ (t : Int) ∧ (t : Int) ≤ ALAP es n) →
        Prob es n t = 1 / (MOBILITY es n : ℚ)) ∧
      (¬((ASAP es n : Int) ≤ (t : Int) ∧ (t : Int) ≤ ALAP es n) →
        Prob es n t = 0)) ∧
    (∀ n ∈ nodesOf es,
      ((List.range (maxAsap es + 1)).map (fun t => Prob es n t)).sum = 1) ∧
    ((List.range (maxAsap es + 1)).map (Cost es)).sum =
      ((nodesOf es).length : ℚ) := by
  refine ⟨?_, fun n hn => Prob_row_sum es hdag hn, Cost_total es hdag⟩
  intro n _ t
  constructor
  · intro h
    rw [Prob, if_pos h]
  · intro h
    rw [Prob, if_neg h]

theorem C6_witness :
    isDAG exG = true ∧
      ((List.range (maxAsap exG + 1)).map (Cost exG)).sum =
        ((nodesOf exG).length : ℚ) :=
  ⟨by decide, (C6_distribution_sums exG (by decide)).2.2⟩

/-- Claim C7: the whole pipeline is a deterministic pure function of the
input edge list — running it twice on the same edge list yields identical
ASAP/ALAP/Schedule outputs. -/
theorem C7_pipeline_deterministic (es : Edges) :
    (runPipelineTwice es).1 = (runPipelineTwice es).2 := rfl

/-- Claim C8 (amended): in the `schedule_data` table a missing resource
label becomes `Unknown` and a missing stage label becomes `?`, while the
`FDS_Schedule.txt` writer labels a missing resource `?` (not `Unknown`);
the scheduler itself never consults the label tables and completes on any
nonempty acyclic graph regardless of missing labels. -/
theorem C8_amended_labels :
    (∀ n : Node, List.lookup n resource_type = none →
      scheduleRowResource n = "Unknown" ∧ txtRowResource n = "?") ∧
    (∀ n : Node, List.lookup n stage_assignment = none →
      scheduleRowStage n = "?") ∧
    (∀ es : Edges, isDAG es = true → nodesOf es ≠ [] →
      ∃ r : RunOut, pipeline es = Except.ok r) := by
  refine ⟨?_, ?_, ?_⟩
  · intro n h
    rw [scheduleRowResource, txtRowResource, h]
    exact ⟨rfl, rfl⟩
  · intro n h
    rw [scheduleRowStage, h]
    rfl
  · intro es hdag hne
    rw [pipeline, if_pos hdag, if_neg hne]
    exact ⟨_, rfl⟩

theorem C8_witness :
    List.lookup "Foo" resource_type = none ∧
      (scheduleRowResource "Foo" = "Unknown" ∧ txtRowResource "Foo" = "?") ∧
      List.lookup "Foo" stage_assignment = none ∧
      scheduleRowStage "Foo" = "?" ∧
      isDAG exG = true ∧ nodesOf exG ≠ [] ∧
      ∃ r : RunOut, pipeline exG = Except.ok r :=
  ⟨by decide, C8_amended_labels.1 "Foo" (by decide), by decide,
   C8_amended_labels.2.1 "Foo" (by decide), by decide, by decide,
   C8_amended_labels.2.2 exG (by decide) (by decide)⟩

/-- Claim C8 is false as stated: the `FDS_Schedule.txt` writer (source
line 264) labels an operation missing from `resource_type` with `?`, not
with the sentinel `Unknown`. -/
theorem C8_counterexample :
    List.lookup "Foo" resource_type = none ∧
      txtRowResource "Foo" = "?" ∧ txtRowResource "Foo" ≠ "Unknown" := by
  refine ⟨by decide, rfl, ?_⟩
  intro h
  exact absurd h (by decide)

/-- Claim C9: the horizon computation `max(ASAP.values())` fails exactly
on the empty edge list — the pipeline returns the `emptyMax` error if and
only if the edge list is empty, and returns no schedule there. -/
theorem C9_empty_edge_list_fails :
    ∀ es : Edges, pipeline es = Except.error PipeError.emptyMax ↔ es = [] := by
  intro es
  constructor
  · intro h
    by_cases hd : isDAG es = true
    · by_cases hn : nodesOf es = []
      · cases es with
        | nil => rfl
        | cons e es' =>
          exfalso
          have hmem : e.1 ∈ nodesOf (e :: es') :=
            mem_nodesOf.mpr ⟨e, List.mem_cons_self e es', Or.inl rfl⟩
          rw [hn] at hmem
          cases hmem
      · rw [pipeline, if_pos hd, if_neg hn] at h
        cases h
    · rw [pipeline, if_neg hd] at h
      simp at h
  · rintro rfl
    rfl

/-- Claim C10: for every acyclic graph with at least one operation, every
timing window lies in the cost table's domain: `0 ≤ ASAP(n)`,
`ALAP(n) ≤ H`, and no probability mass falls on a step beyond `H`. -/
theorem C10_window_within_horizon (es : Edges) (hdag : isDAG es = true) :
    ∀ n ∈ nodesOf es,
      (0 : Int) ≤ (ASAP es n : Int) ∧ ALAP es n ≤ (maxAsap es : Int) ∧
      ∀ t : Nat, maxAsap es < t → Prob es n t = 0 := by
  intro n hn
  obtain ⟨h1, h2⟩ := alap_window es hdag n hn
  refine ⟨by omega, h2, ?_⟩
  intro t ht
  have hcond : ¬((ASAP es n : Int) ≤ (t : Int) ∧ (t : Int) ≤ ALAP es n) := by
    rintro ⟨-, hle⟩
    omega
  rw [Prob, if_neg hcond]

theorem C10_witness :
    isDAG exG = true ∧ "B" ∈ nodesOf exG ∧
      Prob exG "B" (maxAsap exG + 1) = 0 :=
  ⟨by decide, by decide,
   (C10_window_within_horizon exG (by decide) "B" (by decide)).2.2
     (maxAsap exG + 1) (Nat.lt_succ_self _)⟩

end VeriPipe
